import Mathlib

/-!
Verification of the motion-clip extraction pipeline (extract-clips).

The embedding covers the hysteresis motion detector and the interval merger of
src/src/motion_detection.py, the duration / fps handling of
src/src/motion_detection.py, and the export path of src/src/utils.py and
src/src/motion_detection.py.  Python floats are modelled as exact rationals;
the per-frame OpenCV scoring is abstracted into the (timestamp, score) stream
that the hysteresis state machine actually consumes, exactly as the code does
after the background-subtraction step.
-/

/-- MOTION_THRESHOLD_PERCENT_MAX from src/src/constants.py (0.25). -/
def MOTION_THRESHOLD_PERCENT_MAX : ℚ := 1/4

/-- MOTION_THRESHOLD_PERCENT_MIN from src/src/constants.py (0.05). -/
def MOTION_THRESHOLD_PERCENT_MIN : ℚ := 1/20

/-- MIN_CLIP_DURATION from src/src/constants.py (12.0 seconds). -/
def MIN_CLIP_DURATION : ℚ := 12

/-- MERGE_GAP from src/src/constants.py (12.0 seconds). -/
def MERGE_GAP : ℚ := 12

/-- BUFFER_BEFORE from src/src/constants.py (2.0 seconds). -/
def BUFFER_BEFORE : ℚ := 2

/-- BUFFER_AFTER from src/src/constants.py (4.0 seconds). -/
def BUFFER_AFTER : ℚ := 4

/-- FALLBACK_FPS from src/src/constants.py (30.0). -/
def FALLBACK_FPS : ℚ := 30

/-- threshold_min computed in detect_motion_ranges_with_progress (line 144):
frame_area * (MOTION_THRESHOLD_PERCENT_MIN / 100). -/
def threshold_min_of_area (frame_area : ℚ) : ℚ :=
  frame_area * (MOTION_THRESHOLD_PERCENT_MIN / 100)

/-- threshold_max computed in detect_motion_ranges_with_progress (line 145):
frame_area * (MOTION_THRESHOLD_PERCENT_MAX / 100). -/
def threshold_max_of_area (frame_area : ℚ) : ℚ :=
  frame_area * (MOTION_THRESHOLD_PERCENT_MAX / 100)

/-- The mutable state of the hysteresis scan in
detect_motion_ranges_with_progress: the variables tracking, track_start,
has_dramatic_motion, confirmed_ranges, motion_frames. -/
structure DetectState where
  tracking : Bool
  track_start : ℚ
  has_dramatic_motion : Bool
  confirmed_ranges : List (ℚ × ℚ)
  motion_frames : ℕ

/-- Initial state of the scan (lines 152-159): tracking = False,
track_start = 0.0, has_dramatic_motion = False, no ranges, no motion frames. -/
def detect_init : DetectState :=
  { tracking := false, track_start := 0, has_dramatic_motion := false,
    confirmed_ranges := [], motion_frames := 0 }

/-- One iteration of the hysteresis state machine (lines 197-219) on a sampled
frame x = (current_time, frame_max_area). -/
def detectStep (tmin tmax : ℚ) (st : DetectState) (x : ℚ × ℚ) : DetectState :=
  if tmin ≤ x.2 then
    let st1 : DetectState :=
      if st.tracking then
        { st with motion_frames := st.motion_frames + 1 }
      else
        { st with motion_frames := st.motion_frames + 1,
                  tracking := true, track_start := x.1,
                  has_dramatic_motion := false }
    if tmax ≤ x.2 then { st1 with has_dramatic_motion := true } else st1
  else if st.tracking then
    { st with tracking := false, has_dramatic_motion := false,
              confirmed_ranges := st.confirmed_ranges ++
                if st.has_dramatic_motion then [(st.track_start, x.1)] else [] }
  else
    st

/-- The while-loop of detect_motion_ranges_with_progress over the sampled
(timestamp, score) stream. -/
def detectGo (tmin tmax : ℚ) (st : DetectState) : List (ℚ × ℚ) → DetectState
  | [] => st
  | x :: l => detectGo tmin tmax (detectStep tmin tmax st x) l

/-- End-of-stream handling (lines 223-225): if the video ends while tracking
with has_dramatic_motion set, flush (track_start, duration). -/
def detectFinish (st : DetectState) (duration : ℚ) : List (ℚ × ℚ) :=
  st.confirmed_ranges ++
    if st.tracking && st.has_dramatic_motion then [(st.track_start, duration)] else []

/-- detect_motion_ranges_with_progress (src/src/motion_detection.py, lines
112-232), restricted to its pure core: the hysteresis scan over the sampled
(timestamp, score) stream.  Returns (confirmed motion ranges, motion frame
count); the tqdm progress display and the OpenCV frame decoding are I/O and
are not part of the state machine. -/
def detect_motion_ranges_with_progress (tmin tmax : ℚ) (samples : List (ℚ × ℚ))
    (duration : ℚ) : List (ℚ × ℚ) × ℕ :=
  let st := detectGo tmin tmax detect_init samples
  (detectFinish st duration, st.motion_frames)

/-- The merge loop of merge_motion_ranges (lines 254-267): fold over the
start-sorted ranges, extending the current range whenever the next start is
within MERGE_GAP of the current end (new end = max of the two ends), otherwise
emitting the current range and restarting. -/
def mergeLoop (cur : ℚ × ℚ) : List (ℚ × ℚ) → List (ℚ × ℚ)
  | [] => [cur]
  | r :: rest =>
    if r.1 - cur.2 ≤ MERGE_GAP then
      mergeLoop (cur.1, max cur.2 r.2) rest
    else
      cur :: mergeLoop r rest

/-- The buffering / filtering stage of merge_motion_ranges (lines 269-281):
drop merged ranges whose un-buffered duration is below MIN_CLIP_DURATION, then
add BUFFER_BEFORE / BUFFER_AFTER clamped to [0, video_duration]. -/
def bufferAndFilter (video_duration : ℚ) (merged : List (ℚ × ℚ)) : List (ℚ × ℚ) :=
  merged.filterMap fun r =>
    if r.2 - r.1 < MIN_CLIP_DURATION then none
    else some (max 0 (r.1 - BUFFER_BEFORE), min video_duration (r.2 + BUFFER_AFTER))

/-- merge_motion_ranges (src/src/motion_detection.py, lines 235-281): early
return on empty input, sort by start time, merge nearby ranges, then buffer
and filter short clips. -/
def merge_motion_ranges (ranges : List (ℚ × ℚ)) (video_duration : ℚ) : List (ℚ × ℚ) :=
  if ranges = [] then []
  else
    match ranges.mergeSort (fun a b => decide (a.1 ≤ b.1)) with
    | [] => []
    | c :: rest => bufferAndFilter video_duration (mergeLoop c rest)

/-- get_video_duration (src/src/motion_detection.py, lines 89-109).  The cv2
capture is abstracted to whether it opened plus the fps and frame count it
reports: an unopened capture yields 0.0, a non-positive fps yields 0.0 (no
fallback here), otherwise frame_count / fps. -/
def get_video_duration (opened : Bool) (fps frame_count : ℚ) : ℚ :=
  if opened = false then 0
  else if fps ≤ 0 then 0
  else frame_count / fps

/-- The fps selection at the top of detect_motion_ranges_with_progress (lines
136-138): if the reported fps is non-positive, FALLBACK_FPS is used for the
frame timestamps. -/
def detector_fps (fps : ℚ) : ℚ :=
  if fps ≤ 0 then FALLBACK_FPS else fps

/-- The duration gate of process_video (src/src/motion_detection.py, lines
57-60): a video whose duration is ≤ 0 is reported as unreadable and skipped
(process_video returns 0 clips without scanning). -/
def video_is_scanned (duration : ℚ) : Bool :=
  !decide (duration ≤ 0)

/-- Models the Python float format f"{x:.3f}" used by extract_clip
(src/src/utils.py, lines 83 and 87): the value is rounded to 3 decimal
places before being handed to ffmpeg. -/
def fmt3 (x : ℚ) : ℚ :=
  (⌊x * 1000 + 1/2⌋ : ℚ) / 1000

/-- The (start time, duration) pair that extract_clip (src/src/utils.py,
lines 77-94) passes to ffmpeg via the "-ss" and "-t" arguments: both are
formatted with f"{_:.3f}". -/
def extract_clip_args (start e : ℚ) : ℚ × ℚ :=
  (fmt3 start, fmt3 (e - start))

/-- The output name derived in process_video (lines 75-78):
(video_start_time + timedelta(seconds=start)).strftime("%Y-%m-%d_%H.%M.%S").
The strftime format has one-second resolution, so the name is determined by
the whole second ⌊t0 + start⌋ it displays (t0 = the recording's wall-clock
start, in seconds). -/
def clip_output_second (t0 start : ℚ) : ℤ :=
  ⌊t0 + start⌋

/-- All scores in a run reach the tracking threshold. -/
def lowRun (tmin : ℚ) (run : List (ℚ × ℚ)) : Prop :=
  ∀ y ∈ run, tmin ≤ y.2

/-- Some sample in the run reaches the confirmation threshold. -/
def hasPeak (tmax : ℚ) (run : List (ℚ × ℚ)) : Prop :=
  ∃ y ∈ run, tmax ≤ y.2

/-- How an emitted interval ends: either the stream is exhausted and the end
is the video duration, or the next sample scores below the tracking threshold
and the end is its timestamp. -/
def endsAt (tmin dur : ℚ) (rest : List (ℚ × ℚ)) (e : ℚ) : Prop :=
  (rest = [] ∧ e = dur) ∨ ∃ z zs, rest = z :: zs ∧ z.2 < tmin ∧ e = z.1

/-- The machine is idle just before a run starts: either nothing precedes it
(and the machine entered idle), or the immediately preceding sample scored
below the tracking threshold. -/
def idleBefore (tmin : ℚ) (entryIdle : Bool) (pre : List (ℚ × ℚ)) : Prop :=
  (pre = [] ∧ entryIdle = true) ∨ ∃ y, pre.getLast? = some y ∧ y.2 < tmin

/-- An interval r is emitted from a fresh tracked run inside the stream l:
l splits as pre ++ x :: run ++ rest where the machine is idle after pre, x is
the first sample scoring ≥ tmin (it starts the interval at its timestamp),
the whole run stays ≥ tmin, some sample of x :: run reaches tmax, and the
interval ends per endsAt. -/
def FreshEmit (tmin tmax dur : ℚ) (entryIdle : Bool) (l : List (ℚ × ℚ)) (r : ℚ × ℚ) : Prop :=
  ∃ pre x run rest,
    l = pre ++ x :: (run ++ rest) ∧
    idleBefore tmin entryIdle pre ∧
    tmin ≤ x.2 ∧ lowRun tmin run ∧ hasPeak tmax (x :: run) ∧
    r.1 = x.1 ∧ endsAt tmin dur rest r.2

/-- An interval r is emitted by continuing a run that was already being
tracked (from timestamp ts, with confirmation flag conf) when the stream l
was entered. -/
def ContEmit (tmin tmax dur : ℚ) (ts : ℚ) (conf : Bool) (l : List (ℚ × ℚ)) (r : ℚ × ℚ) : Prop :=
  ∃ run rest,
    l = run ++ rest ∧ lowRun tmin run ∧
    (conf = true ∨ hasPeak tmax run) ∧
    r.1 = ts ∧ endsAt tmin dur rest r.2

/-- The hysteresis step while tracking on a sample at or above the tracking
threshold: the track continues, the confirmation flag absorbs whether the
sample also reaches the confirmation threshold. -/
theorem detectStep_cont {tmin tmax : ℚ} {st : DetectState} {x : ℚ × ℚ}
    (h1 : tmin ≤ x.2) (h2 : st.tracking = true) :
    detectStep tmin tmax st x =
      { st with motion_frames := st.motion_frames + 1,
                has_dramatic_motion := st.has_dramatic_motion || decide (tmax ≤ x.2) } := by
  by_cases h3 : tmax ≤ x.2 <;> simp [detectStep, h1, h2, h3]

/-- The hysteresis step while idle on a sample at or above the tracking
threshold: tracking starts at this sample's timestamp. -/
theorem detectStep_start {tmin tmax : ℚ} {st : DetectState} {x : ℚ × ℚ}
    (h1 : tmin ≤ x.2) (h2 : st.tracking = false) :
    detectStep tmin tmax st x =
      { st with motion_frames := st.motion_frames + 1, tracking := true,
                track_start := x.1, has_dramatic_motion := decide (tmax ≤ x.2) } := by
  by_cases h3 : tmax ≤ x.2 <;> simp [detectStep, h1, h2, h3]

/-- The hysteresis step while tracking on a sample below the tracking
threshold: the tracked interval is flushed iff confirmed, and the machine
returns to idle. -/
theorem detectStep_drop {tmin tmax : ℚ} {st : DetectState} {x : ℚ × ℚ}
    (h1 : ¬ tmin ≤ x.2) (h2 : st.tracking = true) :
    detectStep tmin tmax st x =
      { st with tracking := false, has_dramatic_motion := false,
                confirmed_ranges := st.confirmed_ranges ++
                  if st.has_dramatic_motion then [(st.track_start, x.1)] else [] } := by
  simp [detectStep, h1, h2]

/-- The hysteresis step while idle on a sample below the tracking threshold
leaves the state unchanged. -/
theorem detectStep_idle {tmin tmax : ℚ} {st : DetectState} {x : ℚ × ℚ}
    (h1 : ¬ tmin ≤ x.2) (h2 : st.tracking = false) :
    detectStep tmin tmax st x = st := by
  simp [detectStep, h1, h2]

/-- With an inverted threshold configuration the step function coincides with
the single-threshold machine at tmin. -/
theorem detectStep_degenerate {tmin tmax : ℚ} (h : tmax ≤ tmin)
    (st : DetectState) (x : ℚ × ℚ) :
    detectStep tmin tmax st x = detectStep tmin tmin st x := by
  by_cases h1 : tmin ≤ x.2
  · have h2 : tmax ≤ x.2 := le_trans h h1
    simp [detectStep, h1, h2]
  · simp [detectStep, h1]

/-- With an inverted threshold configuration the whole scan coincides with the
single-threshold machine at tmin. -/
theorem detectGo_degenerate {tmin tmax : ℚ} (h : tmax ≤ tmin) :
    ∀ (l : List (ℚ × ℚ)) (st : DetectState),
      detectGo tmin tmax st l = detectGo tmin tmin st l := by
  intro l
  induction l with
  | nil => intro st; rfl
  | cons x l ih => intro st; simp [detectGo, detectStep_degenerate h, ih]

/-- C3 (counterexample): the configuration tmax = 1 < tmin = 5 is not
rejected at configuration-validation time: the scan still runs over the
stream and emits an interval, so no rejection before scanning exists. -/
theorem threshold_misconfig_still_scans :
    (1 : ℚ) < 5 ∧
    (detect_motion_ranges_with_progress 5 1 [((0:ℚ), (6:ℚ)), (1, 0)] 10).1 = [(0, 1)] :=
  ⟨by norm_num, by decide⟩

/-- C3 (amended): the code contains no threshold validation at all: with
tmax ≤ tmin the detector simply scans and behaves exactly as the
single-threshold machine at tmin (every tracked run is immediately
confirmed); moreover with the shipped constants the thresholds satisfy
threshold_min ≤ threshold_max for every nonnegative frame area, so the
inverted case never arises from the shipped configuration. -/
theorem no_threshold_validation_degenerate (tmin tmax dur : ℚ)
    (samples : List (ℚ × ℚ)) (h : tmax ≤ tmin) :
    detect_motion_ranges_with_progress tmin tmax samples dur =
      detect_motion_ranges_with_progress tmin tmin samples dur ∧
    ∀ area : ℚ, 0 ≤ area →
      threshold_min_of_area area ≤ threshold_max_of_area area := by
  constructor
  · simp [detect_motion_ranges_with_progress, detectGo_degenerate h]
  · intro area ha
    unfold threshold_min_of_area threshold_max_of_area
      MOTION_THRESHOLD_PERCENT_MIN MOTION_THRESHOLD_PERCENT_MAX
    nlinarith

theorem no_threshold_validation_degenerate_witness :
    detect_motion_ranges_with_progress 5 1 [((0:ℚ), (6:ℚ)), (1, 0)] 10 =
      detect_motion_ranges_with_progress 5 5 [((0:ℚ), (6:ℚ)), (1, 0)] 10 :=
  (no_threshold_validation_degenerate 5 1 10 [((0:ℚ), (6:ℚ)), (1, 0)] (by norm_num)).1

/-- The first interval produced by the merge loop starts at the running
interval's start, and its end never falls below the running end. -/
theorem mergeLoop_head : ∀ (rest : List (ℚ × ℚ)) (cur : ℚ × ℚ),
    ∃ e tl, mergeLoop cur rest = (cur.1, e) :: tl ∧ cur.2 ≤ e := by
  intro rest
  induction rest with
  | nil => intro cur; exact ⟨cur.2, [], rfl, le_refl _⟩
  | cons r rest ih =>
    intro cur
    by_cases h : r.1 - cur.2 ≤ MERGE_GAP
    · obtain ⟨e, tl, heq, hle⟩ := ih (cur.1, max cur.2 r.2)
      refine ⟨e, tl, ?_, le_trans (le_max_left _ _) hle⟩
      simp only [mergeLoop]
      rw [if_pos h]
      exact heq
    · refine ⟨cur.2, mergeLoop r rest, ?_, le_refl _⟩
      simp only [mergeLoop]
      rw [if_neg h]

/-- C5: whenever the next interval's start minus the running end is within
MERGE_GAP, the loop continues with the end raised to the maximum of the two
ends, so merging an overlapping or nested interval never regresses the
running end, and the eventually emitted interval's end is at least the
running end. -/
theorem mergeLoop_extends_with_max (cur r : ℚ × ℚ) (rest : List (ℚ × ℚ))
    (h : r.1 - cur.2 ≤ MERGE_GAP) :
    mergeLoop cur (r :: rest) = mergeLoop (cur.1, max cur.2 r.2) rest ∧
    cur.2 ≤ max cur.2 r.2 ∧ r.2 ≤ max cur.2 r.2 ∧
    ∃ e tl, mergeLoop cur (r :: rest) = (cur.1, e) :: tl ∧ cur.2 ≤ e := by
  refine ⟨?_, le_max_left _ _, le_max_right _ _, mergeLoop_head (r :: rest) cur⟩
  simp only [mergeLoop]
  rw [if_pos h]

theorem mergeLoop_extends_with_max_witness :
    mergeLoop ((0:ℚ), (5:ℚ)) [((10:ℚ), (8:ℚ))] = mergeLoop ((0:ℚ), max 5 8) [] :=
  (mergeLoop_extends_with_max ((0:ℚ), (5:ℚ)) ((10:ℚ), (8:ℚ)) [] (by norm_num [MERGE_GAP])).1

/-- C6: the minimum-duration test is applied to the un-buffered duration,
strictly before buffering: a merged interval with pre-buffer duration below
MIN_CLIP_DURATION is discarded regardless of its buffered span, and one with
pre-buffer duration exactly MIN_CLIP_DURATION is kept and then buffered. -/
theorem min_duration_checked_before_buffering (dur s e : ℚ) :
    (e - s < MIN_CLIP_DURATION → bufferAndFilter dur [(s, e)] = []) ∧
    (e - s = MIN_CLIP_DURATION →
      bufferAndFilter dur [(s, e)] =
        [(max 0 (s - BUFFER_BEFORE), min dur (e + BUFFER_AFTER))]) := by
  constructor
  · intro h; simp [bufferAndFilter, h]
  · intro h; simp [bufferAndFilter, h]

theorem min_duration_checked_before_buffering_witness :
    bufferAndFilter 100 [((10:ℚ), (21:ℚ))] = [] ∧
    MIN_CLIP_DURATION ≤ min 100 ((21:ℚ) + BUFFER_AFTER) - max 0 ((10:ℚ) - BUFFER_BEFORE) ∧
    bufferAndFilter 100 [((10:ℚ), (22:ℚ))] =
      [(max 0 ((10:ℚ) - BUFFER_BEFORE), min 100 ((22:ℚ) + BUFFER_AFTER))] :=
  ⟨(min_duration_checked_before_buffering 100 10 21).1 (by norm_num [MIN_CLIP_DURATION]),
   by norm_num [MIN_CLIP_DURATION, BUFFER_AFTER, BUFFER_BEFORE],
   (min_duration_checked_before_buffering 100 10 22).2 (by norm_num [MIN_CLIP_DURATION])⟩

/-- C8 (counterexample): a readable video whose metadata reports fps = 0 with
300 frames gets duration 0 from get_video_duration — not
300 / FALLBACK_FPS = 10 — and process_video therefore skips it unscanned. -/
theorem fallback_fps_not_used_for_duration :
    get_video_duration true 0 300 = 0 ∧
    get_video_duration true 0 300 ≠ 300 / FALLBACK_FPS ∧
    video_is_scanned (get_video_duration true 0 300) = false :=
  ⟨by decide, by norm_num [get_video_duration, FALLBACK_FPS], by decide⟩

/-- C8 (amended): for a non-positive reported fps the fallback constant is
substituted only for the frame timestamps inside the detector; the video
duration is computed as 0 and the video is skipped by process_video's
duration gate, so it is not processed. -/
theorem fallback_fps_only_for_timestamps (fps frame_count : ℚ) (h : fps ≤ 0) :
    detector_fps fps = FALLBACK_FPS ∧
    get_video_duration true fps frame_count = 0 ∧
    video_is_scanned (get_video_duration true fps frame_count) = false := by
  refine ⟨by simp [detector_fps, h], by simp [get_video_duration, h], ?_⟩
  simp [get_video_duration, h, video_is_scanned]

theorem fallback_fps_only_for_timestamps_witness :
    detector_fps 0 = FALLBACK_FPS ∧
    get_video_duration true 0 300 = 0 ∧
    video_is_scanned (get_video_duration true 0 300) = false :=
  fallback_fps_only_for_timestamps 0 300 (by norm_num)

/-- Values already on the millisecond grid pass through the ".3f" formatting
unchanged. -/
theorem fmt3_int_div (a : ℤ) : fmt3 ((a : ℚ) / 1000) = (a : ℚ) / 1000 := by
  unfold fmt3
  have h1 : ((a : ℚ) / 1000) * 1000 = (a : ℚ) := by
    field_simp
  rw [h1, Int.floor_int_add]
  have h2 : (⌊(1:ℚ)/2⌋ : ℤ) = 0 := by
    rw [Int.floor_eq_iff]
    constructor <;> norm_num
  rw [h2]
  simp

/-- C9 (counterexample): a final range starting at 1/3 s is not passed to
ffmpeg with full precision: the ":.3f" formatting rounds both start and
duration to 3 decimal places. -/
theorem exporter_rounds_to_milliseconds :
    extract_clip_args ((1:ℚ)/3) 1 ≠ ((1:ℚ)/3, 1 - (1:ℚ)/3) := by
  have h1 : (⌊(1:ℚ)/3 * 1000 + 1/2⌋ : ℤ) = 333 := by
    rw [Int.floor_eq_iff]
    constructor <;> norm_num
  intro h
  have h2 := congrArg Prod.fst h
  simp only [extract_clip_args, fmt3, h1] at h2
  norm_num at h2

/-- C9 (amended): extract_clip formats start and duration with ".3f", so
the exporter receives values rounded to millisecond resolution rather than
the full float values; ranges that already lie on the millisecond grid are
passed exactly. -/
theorem exporter_exact_on_millisecond_grid (s e : ℚ) (a b : ℤ)
    (hs : s = (a : ℚ) / 1000) (he : e = (b : ℚ) / 1000) :
    extract_clip_args s e = (s, e - s) := by
  subst hs he
  unfold extract_clip_args
  rw [fmt3_int_div]
  have h : (b : ℚ)/1000 - (a : ℚ)/1000 = ((b - a : ℤ) : ℚ)/1000 := by
    push_cast
    ring
  rw [h, fmt3_int_div]

theorem exporter_exact_on_millisecond_grid_witness :
    extract_clip_args ((5:ℚ)/1000) ((2005:ℚ)/1000) =
      ((5:ℚ)/1000, (2005:ℚ)/1000 - (5:ℚ)/1000) :=
  exporter_exact_on_millisecond_grid _ _ 5 2005 (by norm_num) (by norm_num)

/-- A fresh emission whose decomposition starts with a strictly preceding
below-threshold sample survives prepending any sample. -/
theorem FreshEmit_cons_of_entry_tracking {tmin tmax dur : ℚ} {x : ℚ × ℚ}
    {l : List (ℚ × ℚ)} {r : ℚ × ℚ}
    (h : FreshEmit tmin tmax dur false l r) (b : Bool) :
    FreshEmit tmin tmax dur b (x :: l) r := by
  obtain ⟨pre, y, run, rest, heq, hidle, hy, hrun, hpk, hr1, hend⟩ := h
  rcases hidle with ⟨hpre, hfalse⟩ | ⟨w, hw, hwlt⟩
  · exact absurd hfalse (by decide)
  · refine ⟨x :: pre, y, run, rest, by rw [heq]; rfl, Or.inr ⟨w, ?_, hwlt⟩,
      hy, hrun, hpk, hr1, hend⟩
    cases pre with
    | nil => simp at hw
    | cons p ps => rw [List.getLast?_cons_cons]; exact hw

/-- A fresh emission survives prepending a below-threshold sample. -/
theorem FreshEmit_cons_of_low {tmin tmax dur : ℚ} {x : ℚ × ℚ}
    {l : List (ℚ × ℚ)} {r : ℚ × ℚ} {b : Bool}
    (h : FreshEmit tmin tmax dur b l r) (hx : x.2 < tmin) (b' : Bool) :
    FreshEmit tmin tmax dur b' (x :: l) r := by
  obtain ⟨pre, y, run, rest, heq, hidle, hy, hrun, hpk, hr1, hend⟩ := h
  refine ⟨x :: pre, y, run, rest, by rw [heq]; rfl, ?_, hy, hrun, hpk, hr1, hend⟩
  rcases hidle with ⟨hpre, _⟩ | ⟨w, hw, hwlt⟩
  · subst hpre
    exact Or.inr ⟨x, rfl, hx⟩
  · refine Or.inr ⟨w, ?_, hwlt⟩
    cases pre with
    | nil => simp at hw
    | cons p ps => rw [List.getLast?_cons_cons]; exact hw

/-- Soundness of the hysteresis scan, generalized over the entry state: every
interval present after finishing is either carried over from the entry state,
completes the run being tracked on entry, or is a fresh emission inside the
remaining stream. -/
theorem detectGo_emit_shape (tmin tmax dur : ℚ) :
    ∀ (l : List (ℚ × ℚ)) (st : DetectState) (r : ℚ × ℚ),
      r ∈ detectFinish (detectGo tmin tmax st l) dur →
      r ∈ st.confirmed_ranges ∨
      (st.tracking = true ∧
        ContEmit tmin tmax dur st.track_start st.has_dramatic_motion l r) ∨
      FreshEmit tmin tmax dur (!st.tracking) l r := by
  intro l
  induction l with
  | nil =>
    intro st r hr
    simp only [detectGo, detectFinish] at hr
    rcases List.mem_append.mp hr with h | h
    · exact Or.inl h
    · by_cases hc : (st.tracking && st.has_dramatic_motion) = true
      · rw [if_pos hc] at h
        have hand : st.tracking = true ∧ st.has_dramatic_motion = true := by simpa using hc
        have hr' : r = (st.track_start, dur) := by simpa using h
        refine Or.inr (Or.inl ⟨hand.1, [], [], rfl, ?_, Or.inl hand.2, ?_, Or.inl ⟨rfl, ?_⟩⟩)
        · intro y hy; simp at hy
        · rw [hr']
        · rw [hr']
      · rw [if_neg hc] at h
        simp at h
  | cons x l ih =>
    intro st r hr
    rw [detectGo] at hr
    by_cases hlow : tmin ≤ x.2
    · by_cases ht : st.tracking = true
      · rw [detectStep_cont hlow ht] at hr
        rcases ih _ r hr with h | ⟨_, h2⟩ | h
        · exact Or.inl h
        · obtain ⟨run, rest, heq, hrun, hconf, hr1, hend⟩ := h2
          refine Or.inr (Or.inl ⟨ht, x :: run, rest, by simp [heq], ?_, ?_, hr1, hend⟩)
          · intro y hy
            rcases List.mem_cons.mp hy with h' | h'
            · rw [h']; exact hlow
            · exact hrun y h'
          · rcases hconf with hcf | hcf
            · have hc2 : (st.has_dramatic_motion || decide (tmax ≤ x.2)) = true := hcf
              have hc3 : st.has_dramatic_motion = true ∨ tmax ≤ x.2 := by simpa using hc2
              rcases hc3 with hc' | hc'
              · exact Or.inl hc'
              · exact Or.inr ⟨x, List.mem_cons_self _ _, hc'⟩
            · obtain ⟨y, hy, hy2⟩ := hcf
              exact Or.inr ⟨y, List.mem_cons_of_mem _ hy, hy2⟩
        · have h' : FreshEmit tmin tmax dur (!st.tracking) l r := h
          rw [ht] at h'
          have h'' : FreshEmit tmin tmax dur false l r := h'
          exact Or.inr (Or.inr (FreshEmit_cons_of_entry_tracking h'' _))
      · have htf : st.tracking = false := by revert ht; cases st.tracking <;> simp
        rw [detectStep_start hlow htf] at hr
        rcases ih _ r hr with h | ⟨_, h2⟩ | h
        · exact Or.inl h
        · obtain ⟨run, rest, heq, hrun, hconf, hr1, hend⟩ := h2
          refine Or.inr (Or.inr ⟨[], x, run, rest, by simp [heq],
            Or.inl ⟨rfl, by simp [htf]⟩, hlow, hrun, ?_, hr1, hend⟩)
          rcases hconf with hcf | hcf
          · have hc2 : decide (tmax ≤ x.2) = true := hcf
            exact ⟨x, List.mem_cons_self _ _, of_decide_eq_true hc2⟩
          · obtain ⟨y, hy, hy2⟩ := hcf
            exact ⟨y, List.mem_cons_of_mem _ hy, hy2⟩
        · have h' : FreshEmit tmin tmax dur false l r := h
          exact Or.inr (Or.inr (FreshEmit_cons_of_entry_tracking h' _))
    · by_cases ht : st.tracking = true
      · rw [detectStep_drop hlow ht] at hr
        rcases ih _ r hr with h | ⟨h1, _⟩ | h
        · rcases List.mem_append.mp h with h' | h'
          · exact Or.inl h'
          · by_cases hdm : st.has_dramatic_motion = true
            · rw [if_pos hdm] at h'
              have hr' : r = (st.track_start, x.1) := by simpa using h'
              refine Or.inr (Or.inl ⟨ht, [], x :: l, rfl, ?_, Or.inl hdm, ?_,
                Or.inr ⟨x, l, rfl, not_le.mp hlow, ?_⟩⟩)
              · intro y hy; simp at hy
              · rw [hr']
              · rw [hr']
            · rw [if_neg hdm] at h'
              simp at h'
        · exact Bool.noConfusion h1
        · have h' : FreshEmit tmin tmax dur true l r := h
          exact Or.inr (Or.inr (FreshEmit_cons_of_low h' (not_le.mp hlow) _))
      · have htf : st.tracking = false := by revert ht; cases st.tracking <;> simp
        rw [detectStep_idle hlow htf] at hr
        rcases ih st r hr with h | ⟨h1, _⟩ | h
        · exact Or.inl h
        · exact absurd h1 ht
        · exact Or.inr (Or.inr (FreshEmit_cons_of_low h (not_le.mp hlow) _))

/-- C1: for a time-ordered score stream (with thresholds tmin ≤ tmax, all
timestamps within the video), every RawInterval emitted by the hysteresis
detector is a FreshEmit: its start is the timestamp of the first sample
scoring ≥ tmin encountered while idle, its end is the timestamp of the first
later sample scoring < tmin (or the video duration at end of stream while
confirmed), and the tracked run contains a sample scoring ≥ tmax whose
timestamp lies inside the interval. -/
theorem detector_emitted_intervals_sound (tmin tmax dur : ℚ)
    (samples : List (ℚ × ℚ)) (_hth : tmin ≤ tmax)
    (hord : samples.Pairwise (fun a b => a.1 ≤ b.1))
    (hdur : ∀ y ∈ samples, y.1 ≤ dur)
    (r : ℚ × ℚ)
    (hr : r ∈ (detect_motion_ranges_with_progress tmin tmax samples dur).1) :
    FreshEmit tmin tmax dur true samples r ∧
    ∃ y ∈ samples, tmax ≤ y.2 ∧ r.1 ≤ y.1 ∧ y.1 ≤ r.2 := by
  have hshape := detectGo_emit_shape tmin tmax dur samples detect_init r hr
  rcases hshape with h | ⟨h1, _⟩ | h
  · simp [detect_init] at h
  · simp [detect_init] at h1
  · have hF : FreshEmit tmin tmax dur true samples r := h
    refine ⟨hF, ?_⟩
    obtain ⟨pre, x, run, rest, heq, _, hx, hrun, hpk, hr1, hend⟩ := hF
    obtain ⟨y, hy, hy2⟩ := hpk
    subst heq
    have hord2 := (List.pairwise_append.mp hord).2.1
    have hx_all : ∀ z ∈ run ++ rest, x.1 ≤ z.1 := (List.pairwise_cons.mp hord2).1
    have hord3 : (run ++ rest).Pairwise (fun a b => a.1 ≤ b.1) :=
      (List.pairwise_cons.mp hord2).2
    have hcross : ∀ a ∈ run, ∀ b ∈ rest, a.1 ≤ b.1 := (List.pairwise_append.mp hord3).2.2
    have hymem : y ∈ pre ++ x :: (run ++ rest) := by
      rcases List.mem_cons.mp hy with h' | h'
      · subst h'; exact List.mem_append_right _ (List.mem_cons_self _ _)
      · exact List.mem_append_right _ (List.mem_cons_of_mem _ (List.mem_append_left _ h'))
    refine ⟨y, hymem, hy2, ?_, ?_⟩
    · rw [hr1]
      rcases List.mem_cons.mp hy with h' | h'
      · rw [h']
      · exact hx_all y (List.mem_append_left _ h')
    · rcases hend with ⟨hrest, hr2⟩ | ⟨z, zs, hrest, _, hr2⟩
      · rw [hr2]
        exact hdur y hymem
      · rw [hr2]
        subst hrest
        rcases List.mem_cons.mp hy with h' | h'
        · rw [h']
          exact hx_all z (List.mem_append_right _ (List.mem_cons_self _ _))
        · exact hcross y h' z (List.mem_cons_self _ _)

theorem detector_emitted_intervals_sound_witness :
    FreshEmit 1 5 7 true [((2:ℚ), (1:ℚ)), ((3:ℚ), (5:ℚ)), ((4:ℚ), (0:ℚ))] ((2:ℚ), (4:ℚ)) :=
  (detector_emitted_intervals_sound 1 5 7 [((2:ℚ), (1:ℚ)), ((3:ℚ), (5:ℚ)), ((4:ℚ), (0:ℚ))]
    (by norm_num) (by decide) (by decide) ((2:ℚ), (4:ℚ)) (by decide)).1

/-- Ordering invariant of the hysteresis scan, generalized over the entry
state: if the remaining stream is time-ordered and bounded by the duration,
and the entry state's accumulated ranges are ordered, well-formed, and end
before the remaining timestamps (with the tracked start, if any, after them
and within the duration), then the finished scan's output is ordered with
start ≤ end everywhere. -/
theorem detectGo_ordered (tmin tmax dur : ℚ) :
    ∀ (l : List (ℚ × ℚ)) (st : DetectState),
      l.Pairwise (fun a b => a.1 ≤ b.1) →
      (∀ y ∈ l, y.1 ≤ dur) →
      st.confirmed_ranges.Pairwise (fun q₁ q₂ => q₁.2 ≤ q₂.1) →
      (∀ q ∈ st.confirmed_ranges, q.1 ≤ q.2) →
      (∀ q ∈ st.confirmed_ranges, ∀ y ∈ l, q.2 ≤ y.1) →
      (st.tracking = true →
        (∀ q ∈ st.confirmed_ranges, q.2 ≤ st.track_start) ∧
        (∀ y ∈ l, st.track_start ≤ y.1) ∧ st.track_start ≤ dur) →
      (detectFinish (detectGo tmin tmax st l) dur).Pairwise (fun q₁ q₂ => q₁.2 ≤ q₂.1) ∧
      ∀ q ∈ detectFinish (detectGo tmin tmax st l) dur, q.1 ≤ q.2 := by
  intro l
  induction l with
  | nil =>
    intro st _ _ hcp hcse _ htr
    simp only [detectGo]
    by_cases hc : (st.tracking && st.has_dramatic_motion) = true
    · have hand : st.tracking = true ∧ st.has_dramatic_motion = true := by simpa using hc
      obtain ⟨hts, _, hdur'⟩ := htr hand.1
      constructor
      · unfold detectFinish
        rw [if_pos hc, List.pairwise_append]
        refine ⟨hcp, by simp, ?_⟩
        intro a ha b hb
        have hb' : b = (st.track_start, dur) := by simpa using hb
        rw [hb']
        exact hts a ha
      · intro q hq
        unfold detectFinish at hq
        rw [if_pos hc] at hq
        rcases List.mem_append.mp hq with h | h
        · exact hcse q h
        · have h' : q = (st.track_start, dur) := by simpa using h
          rw [h']
          exact hdur'
    · constructor
      · unfold detectFinish
        rw [if_neg hc, List.append_nil]
        exact hcp
      · intro q hq
        unfold detectFinish at hq
        rw [if_neg hc, List.append_nil] at hq
        exact hcse q hq
  | cons x l ih =>
    intro st hl hld hcp hcse hcl htr
    have hl' : l.Pairwise (fun a b => a.1 ≤ b.1) := (List.pairwise_cons.mp hl).2
    have hxl : ∀ y ∈ l, x.1 ≤ y.1 := (List.pairwise_cons.mp hl).1
    have hld' : ∀ y ∈ l, y.1 ≤ dur := fun y hy => hld y (List.mem_cons_of_mem _ hy)
    have hxd : x.1 ≤ dur := hld x (List.mem_cons_self _ _)
    simp only [detectGo]
    by_cases hlow : tmin ≤ x.2
    · by_cases ht : st.tracking = true
      · rw [detectStep_cont hlow ht]
        apply ih
        · exact hl'
        · exact hld'
        · exact hcp
        · exact hcse
        · intro q hq y hy; exact hcl q hq y (List.mem_cons_of_mem _ hy)
        · intro _
          obtain ⟨h1, h2, h3⟩ := htr ht
          exact ⟨h1, fun y hy => h2 y (List.mem_cons_of_mem _ hy), h3⟩
      · have htf : st.tracking = false := by revert ht; cases st.tracking <;> simp
        rw [detectStep_start hlow htf]
        apply ih
        · exact hl'
        · exact hld'
        · exact hcp
        · exact hcse
        · intro q hq y hy; exact hcl q hq y (List.mem_cons_of_mem _ hy)
        · intro _
          exact ⟨fun q hq => hcl q hq x (List.mem_cons_self _ _), hxl, hxd⟩
    · by_cases ht : st.tracking = true
      · obtain ⟨h1, h2, h3⟩ := htr ht
        by_cases hdm : st.has_dramatic_motion = true
        · have hstep : detectStep tmin tmax st x =
              { st with tracking := false, has_dramatic_motion := false,
                        confirmed_ranges := st.confirmed_ranges ++ [(st.track_start, x.1)] } := by
            rw [detectStep_drop hlow ht]
            simp [hdm]
          rw [hstep]
          apply ih
          · exact hl'
          · exact hld'
          · rw [List.pairwise_append]
            refine ⟨hcp, by simp, ?_⟩
            intro a ha b hb
            have hb' : b = (st.track_start, x.1) := by simpa using hb
            rw [hb']
            exact h1 a ha
          · intro q hq
            rcases List.mem_append.mp hq with h | h
            · exact hcse q h
            · have h' : q = (st.track_start, x.1) := by simpa using h
              rw [h']
              exact h2 x (List.mem_cons_self _ _)
          · intro q hq y hy
            rcases List.mem_append.mp hq with h | h
            · exact hcl q h y (List.mem_cons_of_mem _ hy)
            · have h' : q = (st.track_start, x.1) := by simpa using h
              rw [h']
              exact hxl y hy
          · intro hfalse
            exact Bool.noConfusion hfalse
        · have hdmf : st.has_dramatic_motion = false := by
            revert hdm; cases st.has_dramatic_motion <;> simp
          have hstep : detectStep tmin tmax st x =
              { st with tracking := false, has_dramatic_motion := false } := by
            rw [detectStep_drop hlow ht]
            simp [hdmf]
          rw [hstep]
          apply ih
          · exact hl'
          · exact hld'
          · exact hcp
          · exact hcse
          · intro q hq y hy; exact hcl q hq y (List.mem_cons_of_mem _ hy)
          · intro hfalse
            exact Bool.noConfusion hfalse
      · have htf : st.tracking = false := by revert ht; cases st.tracking <;> simp
        rw [detectStep_idle hlow htf]
        apply ih
        · exact hl'
        · exact hld'
        · exact hcp
        · exact hcse
        · intro q hq y hy; exact hcl q hq y (List.mem_cons_of_mem _ hy)
        · intro htt
          exact absurd htt ht

/-- C2: for a time-ordered score stream bounded by the video duration, the
detector's RawIntervals come out pairwise non-overlapping (each end at or
before the next start), in non-decreasing start order, and each satisfies
start ≤ end. -/
theorem detector_output_ordered (tmin tmax dur : ℚ) (samples : List (ℚ × ℚ))
    (hord : samples.Pairwise (fun a b => a.1 ≤ b.1))
    (hdur : ∀ y ∈ samples, y.1 ≤ dur) :
    (detect_motion_ranges_with_progress tmin tmax samples dur).1.Pairwise
      (fun q₁ q₂ => q₁.2 ≤ q₂.1) ∧
    (detect_motion_ranges_with_progress tmin tmax samples dur).1.Pairwise
      (fun q₁ q₂ => q₁.1 ≤ q₂.1) ∧
    ∀ q ∈ (detect_motion_ranges_with_progress tmin tmax samples dur).1, q.1 ≤ q.2 := by
  have h := detectGo_ordered tmin tmax dur samples detect_init hord hdur
    (by simp [detect_init]) (by simp [detect_init]) (by simp [detect_init])
    (by intro h'; simp [detect_init] at h')
  obtain ⟨h1, h2⟩ := h
  refine ⟨h1, ?_, h2⟩
  exact List.Pairwise.imp_of_mem (fun {a b} ha _ hab => le_trans (h2 a ha) hab) h1

theorem detector_output_ordered_witness :
    (detect_motion_ranges_with_progress 1 5
      [((2:ℚ), (1:ℚ)), ((3:ℚ), (5:ℚ)), ((4:ℚ), (0:ℚ))] 7).1.Pairwise
      (fun q₁ q₂ => q₁.2 ≤ q₂.1) :=
  (detector_output_ordered 1 5 7 [((2:ℚ), (1:ℚ)), ((3:ℚ), (5:ℚ)), ((4:ℚ), (0:ℚ))]
    (by decide) (by decide)).1

/-- Every interval produced by the merge loop stays inside the bounds obeyed
by its inputs. -/
theorem mergeLoop_bounds (dur : ℚ) :
    ∀ (rest : List (ℚ × ℚ)) (cur : ℚ × ℚ),
      0 ≤ cur.1 → cur.1 ≤ cur.2 → cur.2 ≤ dur →
      (∀ q ∈ rest, 0 ≤ q.1 ∧ q.1 ≤ q.2 ∧ q.2 ≤ dur) →
      ∀ q ∈ mergeLoop cur rest, 0 ≤ q.1 ∧ q.1 ≤ q.2 ∧ q.2 ≤ dur := by
  intro rest
  induction rest with
  | nil =>
    intro cur h1 h2 h3 _ q hq
    have hq' : q = cur := by simpa [mergeLoop] using hq
    rw [hq']
    exact ⟨h1, h2, h3⟩
  | cons r rest ih =>
    intro cur h1 h2 h3 hrest q hq
    by_cases hgap : r.1 - cur.2 ≤ MERGE_GAP
    · simp only [mergeLoop] at hq
      rw [if_pos hgap] at hq
      exact ih (cur.1, max cur.2 r.2) h1 (le_trans h2 (le_max_left _ _))
        (max_le h3 (hrest r (List.mem_cons_self _ _)).2.2)
        (fun p hp => hrest p (List.mem_cons_of_mem _ hp)) q hq
    · simp only [mergeLoop] at hq
      rw [if_neg hgap] at hq
      rcases List.mem_cons.mp hq with h | h
      · rw [h]; exact ⟨h1, h2, h3⟩
      · obtain ⟨hr1, hr2, hr3⟩ := hrest r (List.mem_cons_self _ _)
        exact ih r hr1 hr2 hr3 (fun p hp => hrest p (List.mem_cons_of_mem _ hp)) q h

/-- Every interval produced by the merge loop starts no earlier than the
running interval's start, given start-sorted input. -/
theorem mergeLoop_start_le :
    ∀ (rest : List (ℚ × ℚ)) (cur : ℚ × ℚ),
      rest.Pairwise (fun a b => a.1 ≤ b.1) →
      (∀ q ∈ rest, cur.1 ≤ q.1) →
      ∀ q ∈ mergeLoop cur rest, cur.1 ≤ q.1 := by
  intro rest
  induction rest with
  | nil =>
    intro cur _ _ q hq
    have hq' : q = cur := by simpa [mergeLoop] using hq
    rw [hq']
  | cons r rest ih =>
    intro cur hp hcur q hq
    by_cases hgap : r.1 - cur.2 ≤ MERGE_GAP
    · simp only [mergeLoop] at hq
      rw [if_pos hgap] at hq
      exact ih (cur.1, max cur.2 r.2) (List.pairwise_cons.mp hp).2
        (fun t ht => hcur t (List.mem_cons_of_mem _ ht)) q hq
    · simp only [mergeLoop] at hq
      rw [if_neg hgap] at hq
      rcases List.mem_cons.mp hq with h | h
      · rw [h]
      · exact le_trans (hcur r (List.mem_cons_self _ _))
          (ih r (List.pairwise_cons.mp hp).2 (List.pairwise_cons.mp hp).1 q h)

/-- The merge loop leaves every pair of produced intervals separated by more
than MERGE_GAP, given start-sorted input. -/
theorem mergeLoop_sep :
    ∀ (rest : List (ℚ × ℚ)) (cur : ℚ × ℚ),
      rest.Pairwise (fun a b => a.1 ≤ b.1) →
      (mergeLoop cur rest).Pairwise (fun a b => a.2 + MERGE_GAP < b.1) := by
  intro rest
  induction rest with
  | nil => intro cur _; simp [mergeLoop]
  | cons r rest ih =>
    intro cur hp
    by_cases hgap : r.1 - cur.2 ≤ MERGE_GAP
    · simp only [mergeLoop]
      rw [if_pos hgap]
      exact ih _ (List.pairwise_cons.mp hp).2
    · simp only [mergeLoop]
      rw [if_neg hgap, List.pairwise_cons]
      refine ⟨?_, ih r (List.pairwise_cons.mp hp).2⟩
      intro q hq
      have hrq : r.1 ≤ q.1 :=
        mergeLoop_start_le rest r (List.pairwise_cons.mp hp).2 (List.pairwise_cons.mp hp).1 q hq
      have hlt : MERGE_GAP < r.1 - cur.2 := not_le.mp hgap
      linarith

/-- The buffered, filtered output stays inside [0, dur] with start ≤ end. -/
theorem bufferAndFilter_bounds (dur : ℚ) (merged : List (ℚ × ℚ))
    (h : ∀ p ∈ merged, 0 ≤ p.1 ∧ p.1 ≤ p.2 ∧ p.2 ≤ dur) :
    ∀ q ∈ bufferAndFilter dur merged, 0 ≤ q.1 ∧ q.1 ≤ q.2 ∧ q.2 ≤ dur := by
  intro q hq
  rw [bufferAndFilter, List.mem_filterMap] at hq
  obtain ⟨p, hp, hf⟩ := hq
  by_cases hc : p.2 - p.1 < MIN_CLIP_DURATION
  · rw [if_pos hc] at hf
    exact absurd hf (by simp)
  · rw [if_neg hc] at hf
    obtain ⟨hp1, hp2, hp3⟩ := h p hp
    have hq' : q = (max 0 (p.1 - BUFFER_BEFORE), min dur (p.2 + BUFFER_AFTER)) := by
      simpa using hf.symm
    rw [hq']
    have h0dur : (0:ℚ) ≤ dur := le_trans hp1 (le_trans hp2 hp3)
    have hBB : BUFFER_BEFORE = 2 := rfl
    have hBA : BUFFER_AFTER = 4 := rfl
    refine ⟨le_max_left _ _, ?_, min_le_left _ _⟩
    apply max_le
    · apply le_min h0dur
      linarith
    · apply le_min
      · linarith
      · linarith

/-- Buffering preserves separation: with merged intervals more than MERGE_GAP
apart, the buffered intervals remain disjoint (end at or before next start). -/
theorem bufferAndFilter_pairwise (dur : ℚ) (merged : List (ℚ × ℚ))
    (hsep : merged.Pairwise (fun a b => a.2 + MERGE_GAP < b.1)) :
    (bufferAndFilter dur merged).Pairwise (fun a b => a.2 ≤ b.1) := by
  rw [bufferAndFilter, List.pairwise_filterMap]
  refine hsep.imp ?_
  intro a b hab
  intro y hy y' hy'
  by_cases hca : a.2 - a.1 < MIN_CLIP_DURATION
  · rw [if_pos hca] at hy
    exact absurd hy (by simp)
  · rw [if_neg hca] at hy
    by_cases hcb : b.2 - b.1 < MIN_CLIP_DURATION
    · rw [if_pos hcb] at hy'
      exact absurd hy' (by simp)
    · rw [if_neg hcb] at hy'
      have hy1 : y = (max 0 (a.1 - BUFFER_BEFORE), min dur (a.2 + BUFFER_AFTER)) := by
        simpa using hy.symm
      have hy2 : y' = (max 0 (b.1 - BUFFER_BEFORE), min dur (b.2 + BUFFER_AFTER)) := by
        simpa using hy'.symm
      rw [hy1, hy2]
      have hMG : MERGE_GAP = 12 := rfl
      have hBB : BUFFER_BEFORE = 2 := rfl
      have hBA : BUFFER_AFTER = 4 := rfl
      refine le_trans (min_le_right _ _) (le_trans ?_ (le_max_right _ _))
      linarith

/-- C4: for raw intervals each satisfying start ≤ end within
[0, video_duration], the merger's output is pairwise disjoint (each end at or
before the next start), sorted ascending by start, and every output interval
lies within [0, video_duration] with start ≤ end; the empty input yields the
empty output. -/
theorem merger_output_invariants (ranges : List (ℚ × ℚ)) (dur : ℚ)
    (h : ∀ q ∈ ranges, 0 ≤ q.1 ∧ q.1 ≤ q.2 ∧ q.2 ≤ dur) :
    (merge_motion_ranges ranges dur).Pairwise (fun a b => a.2 ≤ b.1) ∧
    (merge_motion_ranges ranges dur).Pairwise (fun a b => a.1 ≤ b.1) ∧
    (∀ q ∈ merge_motion_ranges ranges dur, 0 ≤ q.1 ∧ q.1 ≤ q.2 ∧ q.2 ≤ dur) ∧
    merge_motion_ranges [] dur = [] := by
  by_cases hr0 : ranges = []
  · subst hr0
    refine ⟨by simp [merge_motion_ranges], by simp [merge_motion_ranges],
      by simp [merge_motion_ranges], by simp [merge_motion_ranges]⟩
  · have hperm := List.mergeSort_perm ranges (fun a b => decide (a.1 ≤ b.1))
    have hsorted :
        (ranges.mergeSort (fun a b => decide (a.1 ≤ b.1))).Pairwise
          (fun a b => a.1 ≤ b.1) := by
      have htot : ∀ a b : ℚ × ℚ,
          ((fun a b => decide (a.1 ≤ b.1)) a b || (fun a b => decide (a.1 ≤ b.1)) b a) = true := by
        intro a b
        rcases le_total a.1 b.1 with h' | h' <;> simp [h']
      have htr : ∀ a b c : ℚ × ℚ,
          (fun a b => decide (a.1 ≤ b.1)) a b = true →
          (fun a b => decide (a.1 ≤ b.1)) b c = true →
          (fun a b => decide (a.1 ≤ b.1)) a c = true := by
        intro a b c hab hbc
        simp only [decide_eq_true_eq] at hab hbc ⊢
        exact le_trans hab hbc
      have := List.sorted_mergeSort htr htot ranges
      exact this.imp (fun hab => of_decide_eq_true hab)
    rcases hms : ranges.mergeSort (fun a b => decide (a.1 ≤ b.1)) with _ | ⟨c, rest⟩
    · rw [hms] at hperm
      exact absurd (List.eq_nil_of_length_eq_zero hperm.length_eq.symm) hr0
    · have hmm : merge_motion_ranges ranges dur = bufferAndFilter dur (mergeLoop c rest) := by
        rw [merge_motion_ranges, if_neg hr0, hms]
      rw [hms] at hperm hsorted
      have hmem : ∀ q ∈ c :: rest, 0 ≤ q.1 ∧ q.1 ≤ q.2 ∧ q.2 ≤ dur :=
        fun q hq => h q (hperm.subset hq)
      have hcb := hmem c (List.mem_cons_self _ _)
      have hrest : ∀ q ∈ rest, 0 ≤ q.1 ∧ q.1 ≤ q.2 ∧ q.2 ≤ dur :=
        fun q hq => hmem q (List.mem_cons_of_mem _ hq)
      have hml := mergeLoop_bounds dur rest c hcb.1 hcb.2.1 hcb.2.2 hrest
      have hsep := mergeLoop_sep rest c (List.pairwise_cons.mp hsorted).2
      have hpb := bufferAndFilter_bounds dur _ hml
      have hpw := bufferAndFilter_pairwise dur _ hsep
      rw [hmm]
      refine ⟨hpw, ?_, hpb, by simp [merge_motion_ranges]⟩
      exact List.Pairwise.imp_of_mem
        (fun {a b} ha _ hab => le_trans (hpb a ha).2.1 hab) hpw

theorem merger_output_invariants_witness :
    (merge_motion_ranges [((0:ℚ), (5:ℚ)), ((1:ℚ), (20:ℚ)), ((40:ℚ), (60:ℚ))] 100).Pairwise
      (fun a b => a.2 ≤ b.1) :=
  (merger_output_invariants [((0:ℚ), (5:ℚ)), ((1:ℚ), (20:ℚ)), ((40:ℚ), (60:ℚ))] 100
    (by decide)).1

/-- In a chain of intervals each more than MERGE_GAP after the previous end
(and each with start ≤ end), every later interval starts more than MERGE_GAP
after the head's end. -/
theorem chain_sep_head :
    ∀ (t : List (ℚ × ℚ)) (a : ℚ × ℚ),
      (∀ q ∈ t, q.1 ≤ q.2) →
      List.Chain' (fun p q => MERGE_GAP < q.1 - p.2) (a :: t) →
      ∀ b ∈ t, a.2 + MERGE_GAP < b.1 := by
  intro t
  induction t with
  | nil => intro a _ _ b hb; simp at hb
  | cons c t ih =>
    intro a hb hch b hbmem
    have h1 : MERGE_GAP < c.1 - a.2 := (List.chain'_cons.mp hch).1
    rcases List.mem_cons.mp hbmem with h | h
    · rw [h]; linarith
    · have h2 := ih c (fun q hq => hb q (List.mem_cons_of_mem _ hq))
        (List.chain'_cons.mp hch).2 b h
      have h3 : c.1 ≤ c.2 := hb c (List.mem_cons_self _ _)
      have hMG : (0:ℚ) ≤ MERGE_GAP := by norm_num [MERGE_GAP]
      linarith

/-- Consecutive separation by more than MERGE_GAP extends to all pairs. -/
theorem sep_pairwise (l : List (ℚ × ℚ))
    (hb : ∀ q ∈ l, q.1 ≤ q.2)
    (hc : List.Chain' (fun p q => MERGE_GAP < q.1 - p.2) l) :
    l.Pairwise (fun a b => a.2 + MERGE_GAP < b.1) := by
  induction l with
  | nil => simp
  | cons a t ih =>
    rw [List.pairwise_cons]
    refine ⟨chain_sep_head t a (fun q hq => hb q (List.mem_cons_of_mem _ hq)) hc, ?_⟩
    exact ih (fun q hq => hb q (List.mem_cons_of_mem _ hq)) hc.tail

/-- When all consecutive gaps exceed MERGE_GAP the merge loop merges
nothing. -/
theorem mergeLoop_no_merge :
    ∀ (rest : List (ℚ × ℚ)) (c : ℚ × ℚ),
      List.Chain' (fun p q => MERGE_GAP < q.1 - p.2) (c :: rest) →
      mergeLoop c rest = c :: rest := by
  intro rest
  induction rest with
  | nil => intro c _; rfl
  | cons r rest ih =>
    intro c hch
    have h1 : MERGE_GAP < r.1 - c.2 := (List.chain'_cons.mp hch).1
    simp only [mergeLoop]
    rw [if_neg (by linarith : ¬ r.1 - c.2 ≤ MERGE_GAP)]
    rw [ih r (List.chain'_cons.mp hch).2]

/-- When every interval already meets the minimum duration, the buffering
stage keeps them all. -/
theorem bufferAndFilter_length (dur : ℚ) :
    ∀ (l : List (ℚ × ℚ)), (∀ q ∈ l, MIN_CLIP_DURATION ≤ q.2 - q.1) →
      (bufferAndFilter dur l).length = l.length := by
  intro l
  induction l with
  | nil => intro _; rfl
  | cons q t ih =>
    intro hq
    have h1 : ¬ q.2 - q.1 < MIN_CLIP_DURATION :=
      not_lt.mpr (hq q (List.mem_cons_self _ _))
    have ih' := ih (fun p hp => hq p (List.mem_cons_of_mem _ hp))
    rw [bufferAndFilter] at ih'
    rw [bufferAndFilter, List.filterMap_cons, if_neg h1]
    simp [List.length_cons, ih']

/-- C7: re-merging an already-merged, already-buffered list (each interval at
least MIN_CLIP_DURATION long, within [0, dur], consecutive gaps strictly
above MERGE_GAP) with the same MERGE_GAP does not reduce the number of
intervals: the count is preserved exactly. -/
theorem merger_idempotent_on_separated (l : List (ℚ × ℚ)) (dur : ℚ)
    (hb : ∀ q ∈ l, 0 ≤ q.1 ∧ MIN_CLIP_DURATION ≤ q.2 - q.1 ∧ q.2 ≤ dur)
    (hgap : List.Chain' (fun p q => MERGE_GAP < q.1 - p.2) l) :
    (merge_motion_ranges l dur).length = l.length := by
  cases l with
  | nil => simp [merge_motion_ranges]
  | cons c rest =>
    have hne : (c :: rest : List (ℚ × ℚ)) ≠ [] := by simp
    have hse : ∀ q ∈ c :: rest, q.1 ≤ q.2 := by
      intro q hq
      have h2 := (hb q hq).2.1
      have hM : MIN_CLIP_DURATION = 12 := rfl
      linarith
    have hpw : (c :: rest : List (ℚ × ℚ)).Pairwise
        (fun a b => (fun a b : ℚ × ℚ => decide (a.1 ≤ b.1)) a b = true) := by
      have h1 := sep_pairwise (c :: rest) hse hgap
      refine List.Pairwise.imp_of_mem ?_ h1
      intro a b ha _ hab
      have h2 : a.1 ≤ a.2 := hse a ha
      have hMG : MERGE_GAP = 12 := rfl
      simp only [decide_eq_true_eq]
      linarith
    have hms : (c :: rest).mergeSort (fun a b => decide (a.1 ≤ b.1)) = c :: rest :=
      List.mergeSort_of_sorted hpw
    rw [merge_motion_ranges, if_neg hne, hms]
    show (bufferAndFilter dur (mergeLoop c rest)).length = (c :: rest).length
    rw [mergeLoop_no_merge rest c hgap]
    exact bufferAndFilter_length dur (c :: rest) (fun q hq => (hb q hq).2.1)

theorem merger_idempotent_on_separated_witness :
    (merge_motion_ranges [((0:ℚ), (20:ℚ)), ((40:ℚ), (60:ℚ))] 100).length =
      [((0:ℚ), (20:ℚ)), ((40:ℚ), (60:ℚ))].length :=
  merger_idempotent_on_separated [((0:ℚ), (20:ℚ)), ((40:ℚ), (60:ℚ))] 100
    (by simp [List.forall_mem_cons]; norm_num [MIN_CLIP_DURATION])
    (by rw [List.chain'_pair]; norm_num [MERGE_GAP])

/-- C10 (counterexample): at a concrete video (raw intervals (0,12) and
(30,44), duration 100, recording start t0 = 0) the merger produces the final
ranges (0,16) and (28,48): their starts are 28 s apart, they do not fall
within the same wall-clock second, and their derived output names differ —
no colliding pair of final ranges exists here. -/
theorem no_same_second_final_ranges_cex :
    merge_motion_ranges [((0:ℚ), (12:ℚ)), ((30:ℚ), (44:ℚ))] 100 =
      [((0:ℚ), (16:ℚ)), ((28:ℚ), (48:ℚ))] ∧
    (1:ℚ) < 28 - 0 ∧
    clip_output_second 0 (0:ℚ) ≠ clip_output_second 0 (28:ℚ) := by
  refine ⟨?_, by norm_num, ?_⟩
  · have hms : List.mergeSort [((0:ℚ), (12:ℚ)), ((30:ℚ), (44:ℚ))]
        (fun a b => decide (a.1 ≤ b.1)) = [((0:ℚ), (12:ℚ)), ((30:ℚ), (44:ℚ))] :=
      List.mergeSort_of_sorted (by decide)
    rw [merge_motion_ranges, if_neg (by simp), hms]
    show bufferAndFilter 100 (mergeLoop ((0:ℚ), (12:ℚ)) [((30:ℚ), (44:ℚ))]) = _
    have hloop : mergeLoop ((0:ℚ), (12:ℚ)) [((30:ℚ), (44:ℚ))] =
        [((0:ℚ), (12:ℚ)), ((30:ℚ), (44:ℚ))] := by
      simp only [mergeLoop]
      rw [if_neg (by norm_num [MERGE_GAP])]
    rw [hloop]
    have hmax1 : max (0:ℚ) ((0:ℚ) - BUFFER_BEFORE) = 0 := by
      rw [max_eq_left]
      norm_num [BUFFER_BEFORE]
    have hmin1 : min (100:ℚ) ((12:ℚ) + BUFFER_AFTER) = 16 := by
      rw [min_eq_right] <;> norm_num [BUFFER_AFTER]
    have hmax2 : max (0:ℚ) ((30:ℚ) - BUFFER_BEFORE) = 28 := by
      rw [show (30:ℚ) - BUFFER_BEFORE = 28 from by norm_num [BUFFER_BEFORE]]
      rw [max_eq_right]
      norm_num
    have hmin2 : min (100:ℚ) ((44:ℚ) + BUFFER_AFTER) = 48 := by
      rw [min_eq_right] <;> norm_num [BUFFER_AFTER]
    rw [bufferAndFilter, List.filterMap_cons, List.filterMap_cons, List.filterMap_nil,
      if_neg (by norm_num [MIN_CLIP_DURATION]), if_neg (by norm_num [MIN_CLIP_DURATION])]
    rw [hmax1, hmin1, hmax2, hmin2]
  · have f1 : (⌊(0:ℚ) + 0⌋ : ℤ) = 0 := by
      rw [Int.floor_eq_iff]
      constructor <;> norm_num
    have f2 : (⌊(0:ℚ) + 28⌋ : ℤ) = 28 := by
      rw [Int.floor_eq_iff]
      constructor <;> norm_num
    simp only [clip_output_second, f1, f2]
    norm_num

/-- C10 (amended): two distinct final ranges of the same video can never have
identical output names, because they can never start within the same
wall-clock second: for any valid raw-interval input, any two distinct ranges
produced by the merger have starts more than 22 seconds apart (kept merged
intervals last at least MIN_CLIP_DURATION = 12 s, consecutive ones are more
than MERGE_GAP = 12 s apart, and the buffers only move boundaries by
BUFFER_BEFORE = 2 / BUFFER_AFTER = 4 s), so the one-second-resolution names
⌊t0 + start⌋ always differ and the overwrite scenario cannot arise. -/
theorem merger_final_ranges_distinct_seconds (ranges : List (ℚ × ℚ)) (dur t0 : ℚ)
    (h : ∀ q ∈ ranges, 0 ≤ q.1 ∧ q.1 ≤ q.2 ∧ q.2 ≤ dur) :
    (merge_motion_ranges ranges dur).Pairwise
      (fun a b => a.1 + 22 < b.1 ∧ clip_output_second t0 a.1 ≠ clip_output_second t0 b.1) := by
  by_cases hr0 : ranges = []
  · subst hr0
    simp [merge_motion_ranges]
  · have hperm := List.mergeSort_perm ranges (fun a b => decide (a.1 ≤ b.1))
    have hsorted :
        (ranges.mergeSort (fun a b => decide (a.1 ≤ b.1))).Pairwise
          (fun a b => a.1 ≤ b.1) := by
      have htot : ∀ a b : ℚ × ℚ,
          ((fun a b => decide (a.1 ≤ b.1)) a b || (fun a b => decide (a.1 ≤ b.1)) b a) = true := by
        intro a b
        rcases le_total a.1 b.1 with h' | h' <;> simp [h']
      have htr : ∀ a b c : ℚ × ℚ,
          (fun a b => decide (a.1 ≤ b.1)) a b = true →
          (fun a b => decide (a.1 ≤ b.1)) b c = true →
          (fun a b => decide (a.1 ≤ b.1)) a c = true := by
        intro a b c hab hbc
        simp only [decide_eq_true_eq] at hab hbc ⊢
        exact le_trans hab hbc
      have := List.sorted_mergeSort htr htot ranges
      exact this.imp (fun hab => of_decide_eq_true hab)
    rcases hms : ranges.mergeSort (fun a b => decide (a.1 ≤ b.1)) with _ | ⟨c, rest⟩
    · rw [hms] at hperm
      exact absurd (List.eq_nil_of_length_eq_zero hperm.length_eq.symm) hr0
    · have hmm : merge_motion_ranges ranges dur = bufferAndFilter dur (mergeLoop c rest) := by
        rw [merge_motion_ranges, if_neg hr0, hms]
      rw [hms] at hperm hsorted
      have hmem : ∀ q ∈ c :: rest, 0 ≤ q.1 ∧ q.1 ≤ q.2 ∧ q.2 ≤ dur :=
        fun q hq => h q (hperm.subset hq)
      have hcb := hmem c (List.mem_cons_self _ _)
      have hrest : ∀ q ∈ rest, 0 ≤ q.1 ∧ q.1 ≤ q.2 ∧ q.2 ≤ dur :=
        fun q hq => hmem q (List.mem_cons_of_mem _ hq)
      have hml := mergeLoop_bounds dur rest c hcb.1 hcb.2.1 hcb.2.2 hrest
      have hsep := mergeLoop_sep rest c (List.pairwise_cons.mp hsorted).2
      have hsep2 : (mergeLoop c rest).Pairwise
          (fun p q => p.2 + MERGE_GAP < q.1 ∧ 0 ≤ p.1) :=
        List.Pairwise.imp_of_mem (fun {p q} hp _ hrel => ⟨hrel, (hml p hp).1⟩) hsep
      rw [hmm, bufferAndFilter, List.pairwise_filterMap]
      refine hsep2.imp ?_
      intro p q hpq y hy y' hy'
      obtain ⟨hrel, hp0⟩ := hpq
      by_cases hca : p.2 - p.1 < MIN_CLIP_DURATION
      · rw [if_pos hca] at hy
        exact absurd hy (by simp)
      · rw [if_neg hca] at hy
        by_cases hcb' : q.2 - q.1 < MIN_CLIP_DURATION
        · rw [if_pos hcb'] at hy'
          exact absurd hy' (by simp)
        · rw [if_neg hcb'] at hy'
          have hy1 : y = (max 0 (p.1 - BUFFER_BEFORE), min dur (p.2 + BUFFER_AFTER)) := by
            simpa using hy.symm
          have hy2 : y' = (max 0 (q.1 - BUFFER_BEFORE), min dur (q.2 + BUFFER_AFTER)) := by
            simpa using hy'.symm
          have hkept : MIN_CLIP_DURATION ≤ p.2 - p.1 := not_lt.mp hca
          have hsep22 : max 0 (p.1 - BUFFER_BEFORE) + 22 < max 0 (q.1 - BUFFER_BEFORE) := by
            have hBB : BUFFER_BEFORE = 2 := rfl
            have hMG : MERGE_GAP = 12 := rfl
            have hMC : MIN_CLIP_DURATION = 12 := rfl
            rw [hBB]
            rw [hMG] at hrel
            rw [hMC] at hkept
            have h1 : max (0:ℚ) (p.1 - 2) ≤ p.1 := max_le hp0 (by linarith)
            have h2 : q.1 - 2 ≤ max (0:ℚ) (q.1 - 2) := le_max_right _ _
            linarith
          have hlt : y.1 + 22 < y'.1 := by
            rw [hy1, hy2]
            exact hsep22
          refine ⟨hlt, ?_⟩
          have hfl : ⌊t0 + y.1⌋ < ⌊t0 + y'.1⌋ := by
            have h3 : t0 + y.1 + 1 ≤ t0 + y'.1 := by linarith
            have h4 : ⌊t0 + y.1 + 1⌋ ≤ ⌊t0 + y'.1⌋ := Int.floor_mono h3
            rw [Int.floor_add_one] at h4
            omega
          simp only [clip_output_second]
          exact ne_of_lt hfl

theorem merger_final_ranges_distinct_seconds_witness :
    (merge_motion_ranges [((0:ℚ), (12:ℚ)), ((30:ℚ), (44:ℚ))] 100).Pairwise
      (fun a b => a.1 + 22 < b.1 ∧ clip_output_second 0 a.1 ≠ clip_output_second 0 b.1) :=
  merger_final_ranges_distinct_seconds [((0:ℚ), (12:ℚ)), ((30:ℚ), (44:ℚ))] 100 0
    (by decide)
